import Mathlib

/-!
Shallow embedding of `src/download_and_push.py`: a script that reads a
URL-to-filename mapping file, expands `{function_name}` placeholders in the
URLs, downloads each URL to its destination, and conditionally commits and
pushes the results.  Pure functions of the script become Lean functions;
the effects (HTTP fetches, filesystem writes, child processes) are modelled
by explicit oracles and state records.
-/

namespace DAP

/-! ### Python string helpers (`str.strip`, `str.split(None, 1)`) -/

/-- Python whitespace characters relevant to `str.strip` / `str.split`. -/
def isSpace (c : Char) : Bool :=
  c = ' ' || c = '\t' || c = '\n' || c = '\r' || c = '\x0b' || c = '\x0c'

/-- Python `str.strip()` on a character list. -/
def trim (s : List Char) : List Char :=
  ((s.dropWhile isSpace).reverse.dropWhile isSpace).reverse

/-! ### Placeholder expansion (`replace_url_placeholders`, lines 23-31)

    `re.sub(r'\x7b([^\x7d]+)\x7d', replacer, url)` scans left to right for
    non-overlapping matches.  A match at an opening brace extends to the
    first closing brace after it, provided at least one character lies in
    between.  `splitAtClose cs` splits `cs` at the first closing brace. -/

def splitAtClose : List Char → Option (List Char × List Char)
  | [] => none
  | c :: rest =>
    if c = '}' then some ([], rest)
    else (splitAtClose rest).map (fun p => (c :: p.1, p.2))

/-- The `re.sub` scan of `replace_url_placeholders`, with explicit fuel
    bounding the number of scan steps (any fuel of at least the input's
    length gives the same result — `subAuxF_fuel` below): `lookup` is the
    registry (`FUNCTION_MAPPING`); a matched name that is registered is
    replaced by the registered string, an unregistered one is emitted
    verbatim (the Python `replacer` returns `match.group(0)`), and scanning
    resumes after the match's closing brace. -/
def subAuxF (lookup : String → Option String) : Nat → List Char → List Char
  | _, [] => []
  | 0, cs => cs
  | fuel + 1, c :: rest =>
    if c = '{' then
      match splitAtClose rest with
      | some (name, after) =>
        if name = [] then
          c :: subAuxF lookup fuel rest
        else
          match lookup (String.mk name) with
          | some v => v.data ++ subAuxF lookup fuel after
          | none => '{' :: (name ++ '}' :: subAuxF lookup fuel after)
      | none => c :: subAuxF lookup fuel rest
    else c :: subAuxF lookup fuel rest

/-- The `re.sub` scan at its natural fuel. -/
def subAux (lookup : String → Option String) (cs : List Char) : List Char :=
  subAuxF lookup cs.length cs

/-- `replace_url_placeholders` at the `String` level. -/
def replace_url_placeholders (lookup : String → Option String) (url : String) : String :=
  String.mk (subAux lookup url.data)

/-- Decides whether a character list contains a closing brace. -/
def containsClose : List Char → Bool
  | [] => false
  | c :: rest => c = '}' || containsClose rest

/-- Decides whether a character list contains an opening brace followed
    (anywhere later) by a closing brace, i.e. whether it contains any
    brace-enclosed substring at all. -/
def containsBracePair : List Char → Bool
  | [] => false
  | c :: rest => (c = '{' && containsClose rest) || containsBracePair rest

/-! ### Dates (`one_week_ago`, lines 12-15)

    `datetime.now() - timedelta(days=7)` performs exact proleptic-Gregorian
    calendar arithmetic; we embed it as seven applications of the
    calendar-predecessor function, and `strftime("%Y-%m-%d")` as zero-padded
    formatting. -/

structure Date where
  year : Nat
  month : Nat
  day : Nat
deriving DecidableEq, Repr

/-- Gregorian leap-year rule. -/
def isLeap (y : Nat) : Bool :=
  decide (y % 4 = 0 ∧ (y % 100 ≠ 0 ∨ y % 400 = 0))

def daysInMonth (y m : Nat) : Nat :=
  if m = 2 then (if isLeap y then 29 else 28)
  else if m = 4 ∨ m = 6 ∨ m = 9 ∨ m = 11 then 30
  else 31

/-- The calendar day immediately before `d`. -/
def prevDay (d : Date) : Date :=
  if 1 < d.day then ⟨d.year, d.month, d.day - 1⟩
  else if 1 < d.month then ⟨d.year, d.month - 1, daysInMonth d.year (d.month - 1)⟩
  else ⟨d.year - 1, 12, 31⟩

/-- `d` minus `n` calendar days. -/
def subDays (d : Date) : Nat → Date
  | 0 => d
  | n + 1 => subDays (prevDay d) n

/-- Number of leap years in `1..n`. -/
def leapCount (n : Nat) : Nat :=
  n / 4 - n / 100 + n / 400

/-- Days in year `y` strictly before month `m` (for valid `m`). -/
def daysBeforeMonth (y m : Nat) : Nat :=
  (if m = 1 then 0
   else if m = 2 then 31
   else if m = 3 then 59
   else if m = 4 then 90
   else if m = 5 then 120
   else if m = 6 then 151
   else if m = 7 then 181
   else if m = 8 then 212
   else if m = 9 then 243
   else if m = 10 then 273
   else if m = 11 then 304
   else 334)
  + (if 3 ≤ m ∧ isLeap y then 1 else 0)

/-- Proleptic-Gregorian ordinal (Python `date.toordinal`): day 1 is 0001-01-01. -/
def ordinalOf (d : Date) : Nat :=
  365 * (d.year - 1) + leapCount (d.year - 1) + daysBeforeMonth d.year d.month + d.day

def isValidDate (d : Date) : Prop :=
  1 ≤ d.year ∧ 1 ≤ d.month ∧ d.month ≤ 12 ∧ 1 ≤ d.day ∧ d.day ≤ daysInMonth d.year d.month

instance (d : Date) : Decidable (isValidDate d) := by
  unfold isValidDate; infer_instance

/-- Zero-pad the decimal form of `n` to width `w` (as `strftime` does). -/
def padTo (w n : Nat) : String :=
  String.mk (List.replicate (w - (toString n).length) '0' ++ (toString n).data)

/-- `strftime("%Y-%m-%d")`. -/
def formatDate (d : Date) : String :=
  padTo 4 d.year ++ "-" ++ padTo 2 d.month ++ "-" ++ padTo 2 d.day

/-- `one_week_ago` (lines 12-15), parametrised by the current date `today`
    (the date part of `datetime.now()`). -/
def one_week_ago (today : Date) : String :=
  formatDate (subDays today 7)

/-- `FUNCTION_MAPPING` (lines 18-20) as a lookup returning the string a
    registered zero-argument generator produces, parametrised by the
    current date. -/
def FUNCTION_MAPPING (today : Date) : String → Option String :=
  fun name => if name = "one_week_ago" then some (one_week_ago today) else none

/-! ### Mapping loader (`read_url_mapping`, lines 34-59) -/

/-- What one input line contributes: skipped comment or blank line, a
    warning (line kept out of the mapping), or a `(url, filename)` entry. -/
inductive LineResult where
  | skip : LineResult
  | warn : LineResult
  | entry (url filename : String) : LineResult
deriving DecidableEq, Repr

/-- Lines 40-50 of the loop body: strip the line, skip blanks and `#`
    comments, split with `line.split(None, 1)` (at most one split on a run
    of whitespace), warn unless the split yields two parts, and expand
    placeholders in the URL field. -/
def parseLine (lookup : String → Option String) (rawLine : String) : LineResult :=
  let line := trim rawLine.data
  if line = [] then .skip
  else if line.head? = some '#' then .skip
  else
    let field1 := line.takeWhile (fun c => !isSpace c)
    let rest := (line.dropWhile (fun c => !isSpace c)).dropWhile isSpace
    if rest = [] then .warn
    else .entry (String.mk (subAux lookup field1)) (String.mk rest)

/-- Python-`dict` assignment `url_mapping[u] = v` on an insertion-ordered
    association list: an existing key keeps its position and gets the new
    value, a new key is appended. -/
def dictInsert (m : List (String × String)) (u v : String) : List (String × String) :=
  if m.any (fun p => p.1 == u) then
    m.map (fun p => if p.1 = u then (u, v) else p)
  else m ++ [(u, v)]

/-- The `for line_num, line in enumerate(f, 1)` loop: `n` is the next line
    number, the result is the mapping together with the 1-based numbers of
    the lines that drew an invalid-format warning. -/
def readLoop (lookup : String → Option String) :
    Nat → List (String × String) → List String → List (String × String) × List Nat
  | _, acc, [] => (acc, [])
  | n, acc, line :: rest =>
    match parseLine lookup line with
    | .skip => readLoop lookup (n + 1) acc rest
    | .warn =>
      let r := readLoop lookup (n + 1) acc rest
      (r.1, n :: r.2)
    | .entry u f => readLoop lookup (n + 1) (dictInsert acc u f) rest

/-- `read_url_mapping` over the file's lines (the file-not-found and
    read-error exits are outside the claims considered here). -/
def read_url_mapping (lookup : String → Option String) (lines : List String) :
    List (String × String) × List Nat :=
  readLoop lookup 1 [] lines

/-- First value stored under key `k` in an association list. -/
def assocFind (m : List (String × String)) (k : String) : Option String :=
  match m with
  | [] => none
  | (a, b) :: t => if a = k then some b else assocFind t k

/-- Last element of a list, if any. -/
def lastOf {α : Type} : List α → Option α
  | [] => none
  | [a] => some a
  | _ :: b :: t => lastOf (b :: t)

/-- The entry a line contributes, if it contributes one. -/
def parsedEntry (lookup : String → Option String) (line : String) :
    Option (String × String) :=
  match parseLine lookup line with
  | .entry u f => some (u, f)
  | _ => none

/-- Number of whitespace-delimited fields in a character list (what an
    unbounded Python `split()` would yield); the flag records whether the
    previous character was inside a field. -/
def countFieldsAux : Bool → List Char → Nat
  | _, [] => 0
  | inField, c :: rest =>
    if isSpace c then countFieldsAux false rest
    else (if inField then 0 else 1) + countFieldsAux true rest

def countFields (cs : List Char) : Nat :=
  countFieldsAux false cs

/-! ### Downloads (`download_file`, lines 62-81)

    The HTTP fetch is an oracle from URLs to results; the filesystem is a
    record of existing directories and files.  `urllib.request.urlopen`
    either returns the full body or raises `HTTPError` / `URLError`, both
    of which `download_file` catches; `open(filename, 'wb')` raises an
    uncaught exception when the destination's parent directory is missing
    (the code never creates directories). -/

inductive FetchResult where
  | ok (content : List Nat) : FetchResult
  | httpError (code : Nat) (reason : String) : FetchResult
  | urlError (reason : String) : FetchResult
deriving DecidableEq, Repr

def FetchResult.isError : FetchResult → Bool
  | .ok _ => false
  | .httpError _ _ => true
  | .urlError _ => true

structure FS where
  dirs : List String
  files : List (String × List Nat)
deriving DecidableEq, Repr

/-- Characters of the parent directory of a path: the part before the last
    slash, or `none` when the path has no slash (a bare filename in the
    current directory, which always exists). -/
def parentChars (cs : List Char) : Option (List Char) :=
  if '/' ∈ cs then some (((cs.reverse.dropWhile (fun c => c ≠ '/')).drop 1).reverse)
  else none

/-- Whether `open(p, 'wb')` can create/truncate `p` in `fs`. -/
def parentExistsb (fs : FS) (p : String) : Bool :=
  match parentChars p.data with
  | none => true
  | some d => fs.dirs.contains (String.mk d)

/-- Write `content` at path `p`, replacing any previous file there. -/
def writeFile (fs : FS) (p : String) (content : List Nat) : FS :=
  { fs with files := (p, content) :: fs.files.filter (fun q => q.1 != p) }

/-- Outcome of one `download_file` call: `success`/`failure` are the
    function's `True`/`False` returns, `exn` is an exception that escapes
    the function (not caught by its two `except` clauses). -/
inductive DLOutcome where
  | success (fs : FS) : DLOutcome
  | failure (fs : FS) : DLOutcome
  | exn (fs : FS) : DLOutcome
deriving DecidableEq, Repr

/-- The filesystem state an outcome leaves behind. -/
def DLOutcome.fsOf : DLOutcome → FS
  | .success fs => fs
  | .failure fs => fs
  | .exn fs => fs

/-- `download_file(url, filename)` (lines 62-81): fetch the whole body
    first; on `HTTPError`/`URLError` print and return `False`; otherwise
    open the destination and write the body, which raises out of the
    function when the parent directory is missing. -/
def download_file (fetch : String → FetchResult) (fs : FS) (url filename : String) :
    DLOutcome :=
  match fetch url with
  | .httpError _ _ => .failure fs
  | .urlError _ => .failure fs
  | .ok content =>
    if parentExistsb fs filename then .success (writeFile fs filename content)
    else .exn fs

/-- The download loop of `main` (lines 129-131): returns the number of
    successes and the final filesystem, or `none` when an uncaught
    exception from `download_file` aborts the whole process. -/
def runDownloads (fetch : String → FetchResult) :
    FS → List (String × String) → Option (Nat × FS)
  | fs, [] => some (0, fs)
  | fs, (u, f) :: rest =>
    match download_file fetch fs u f with
    | .success fs' =>
      match runDownloads fetch fs' rest with
      | some (n, fs'') => some (n + 1, fs'')
      | none => none
    | .failure fs' => runDownloads fetch fs' rest
    | .exn _ => none

/-! ### Publish step (`git_push`, lines 84-110) and the tail of `main` -/

inductive GitCmd where
  | add : GitCmd
  | gstatus : GitCmd
  | commit : GitCmd
  | push : GitCmd
deriving DecidableEq, Repr

/-- Exit codes and captured output of the four git child processes; the
    `status --porcelain` exit code is recorded but, like in the code
    (no `check=True` there), never inspected. -/
structure GitWorld where
  addExit : Nat
  statusExit : Nat
  statusOut : String
  commitExit : Nat
  pushExit : Nat
deriving DecidableEq, Repr

/-- `git_push()` (lines 84-110): returns the function's boolean result and
    the list of git commands actually invoked.  `add`, `commit`, `push` run
    with `check=True`, so a non-zero exit raises `CalledProcessError`,
    which is caught and turned into `False`. -/
def git_push (w : GitWorld) : Bool × List GitCmd :=
  if w.addExit ≠ 0 then (false, [.add])
  else if trim w.statusOut.data = [] then (true, [.add, .gstatus])
  else if w.commitExit ≠ 0 then (false, [.add, .gstatus, .commit])
  else if w.pushExit ≠ 0 then (false, [.add, .gstatus, .commit, .push])
  else (true, [.add, .gstatus, .commit, .push])

/-- Lines 133-142 of `main`, after the download loop: given the success
    count, returns the process exit status and how many times `git_push`
    was invoked. -/
def mainPostLoop (w : GitWorld) (success_count : Nat) : Nat × Nat :=
  if 0 < success_count then
    if (git_push w).1 then (0, 1) else (1, 1)
  else (0, 0)

/-! ### Concrete fixtures used by counterexamples and witnesses -/

/-- A fixed current date, 2024-03-10. -/
def d0 : Date := ⟨2024, 3, 10⟩

/-- A fetch oracle for which every URL succeeds with a two-byte body. -/
def fetchOk : String → FetchResult := fun _ => .ok [104, 105]

/-- An empty filesystem: no directories, no files. -/
def fs0 : FS := ⟨[], []⟩

/-- A fetch oracle for which every URL fails with HTTP 404. -/
def fetch404 : String → FetchResult := fun _ => .httpError 404 "Not Found"

/-! ## Theorems -/

/-! ### Scanner lemmas -/

theorem splitAtClose_some : ∀ l n r : List Char,
    splitAtClose l = some (n, r) → l = n ++ '}' :: r ∧ '}' ∉ n := by
  intro l
  induction l with
  | nil => intro n r h; simp [splitAtClose] at h
  | cons a t ih =>
    intro n r h
    simp only [splitAtClose] at h
    split at h
    · rename_i ha
      simp only [Option.some.injEq, Prod.mk.injEq] at h
      obtain ⟨hn, hr⟩ := h
      subst hn; subst hr; subst ha
      simp
    · rename_i ha
      cases ht : splitAtClose t with
      | none => rw [ht] at h; simp at h
      | some p =>
        rw [ht] at h
        simp only [Option.map_some', Option.some.injEq, Prod.mk.injEq] at h
        obtain ⟨hn, hr⟩ := h
        obtain ⟨ht1, ht2⟩ := ih p.1 p.2 (by rw [ht])
        subst hn; subst hr
        constructor
        · simp [ht1]
        · intro hmem
          rcases List.mem_cons.mp hmem with h1 | h2
          · exact ha h1.symm
          · exact ht2 h2

theorem splitAtClose_none : ∀ l : List Char, splitAtClose l = none → '}' ∉ l := by
  intro l
  induction l with
  | nil => intro _ h; simp at h
  | cons a t ih =>
    intro h
    simp only [splitAtClose] at h
    split at h
    · simp at h
    · rename_i ha
      cases ht : splitAtClose t with
      | some p => rw [ht] at h; simp at h
      | none =>
        intro hmem
        rcases List.mem_cons.mp hmem with h1 | h2
        · exact ha h1.symm
        · exact ih ht h2

theorem splitAtClose_append : ∀ n b : List Char, '}' ∉ n →
    splitAtClose (n ++ '}' :: b) = some (n, b) := by
  intro n
  induction n with
  | nil => intro b _; simp [splitAtClose]
  | cons a t ih =>
    intro b h
    have ha : ¬ a = '}' := fun hh => h (by simp [hh])
    have ht : '}' ∉ t := fun hm => h (List.mem_cons_of_mem _ hm)
    rw [List.cons_append]
    simp only [splitAtClose, if_neg ha]
    rw [ih b ht]
    rfl

/-- The scan result does not depend on the fuel, as long as the fuel is at
    least the input's length. -/
theorem subAuxF_fuel (lookup : String → Option String) :
    ∀ (fuel fuel' : Nat) (cs : List Char), cs.length ≤ fuel → cs.length ≤ fuel' →
      subAuxF lookup fuel cs = subAuxF lookup fuel' cs := by
  intro fuel
  induction fuel with
  | zero =>
    intro fuel' cs h _
    have hnil : cs = [] := by cases cs <;> simp_all
    subst hnil
    cases fuel' <;> rfl
  | succ f ih =>
    intro fuel' cs h h'
    cases cs with
    | nil => cases fuel' <;> rfl
    | cons c rest =>
      cases fuel' with
      | zero => simp at h'
      | succ f' =>
        have hr : rest.length ≤ f := by simpa using h
        have hr' : rest.length ≤ f' := by simpa using h'
        by_cases hc : c = '{'
        · cases hs : splitAtClose rest with
          | none =>
            simp only [subAuxF, if_pos hc, hs]
            rw [ih f' rest hr hr']
          | some p =>
            obtain ⟨name, after⟩ := p
            have hsp := splitAtClose_some rest name after hs
            have hlt : after.length < rest.length := by
              rw [hsp.1]
              simp only [List.length_append, List.length_cons]
              omega
            by_cases hn : name = []
            · simp only [subAuxF, if_pos hc, hs, if_pos hn]
              rw [ih f' rest hr hr']
            · simp only [subAuxF, if_pos hc, hs, if_neg hn]
              have h1 : after.length ≤ f := by omega
              have h2 : after.length ≤ f' := by omega
              cases hv : lookup (String.mk name) with
              | some v =>
                simp only [hv]
                rw [ih f' after h1 h2]
              | none =>
                simp only [hv]
                rw [ih f' after h1 h2]
        · simp only [subAuxF, if_neg hc]
          rw [ih f' rest hr hr']

/-! ### Characteristic equations of the scan -/

theorem subAux_nil (lookup : String → Option String) : subAux lookup [] = [] := rfl

theorem subAux_cons (lookup : String → Option String) (c : Char) (rest : List Char)
    (hc : ¬ c = '{') : subAux lookup (c :: rest) = c :: subAux lookup rest := by
  simp only [subAux, List.length_cons, subAuxF, if_neg hc]

theorem subAux_noclose (lookup : String → Option String) (rest : List Char)
    (hs : splitAtClose rest = none) :
    subAux lookup ('{' :: rest) = '{' :: subAux lookup rest := by
  simp only [subAux, List.length_cons, subAuxF, hs]
  simp

theorem subAux_emptyname (lookup : String → Option String) (rest after : List Char)
    (hs : splitAtClose rest = some ([], after)) :
    subAux lookup ('{' :: rest) = '{' :: subAux lookup rest := by
  simp only [subAux, List.length_cons, subAuxF, hs]
  simp

theorem subAux_known (lookup : String → Option String) (rest name after : List Char)
    (v : String) (hs : splitAtClose rest = some (name, after)) (hn : name ≠ [])
    (hv : lookup (String.mk name) = some v) :
    subAux lookup ('{' :: rest) = v.data ++ subAux lookup after := by
  have hsp := splitAtClose_some rest name after hs
  have hle : after.length ≤ rest.length := by
    rw [hsp.1]
    simp only [List.length_append, List.length_cons]
    omega
  simp only [subAux, List.length_cons, subAuxF, hs, if_neg hn, hv]
  rw [subAuxF_fuel lookup rest.length after.length after hle (le_refl _)]
  simp

theorem subAux_unknown (lookup : String → Option String) (rest name after : List Char)
    (hs : splitAtClose rest = some (name, after)) (hn : name ≠ [])
    (hv : lookup (String.mk name) = none) :
    subAux lookup ('{' :: rest) = '{' :: (name ++ '}' :: subAux lookup after) := by
  have hsp := splitAtClose_some rest name after hs
  have hle : after.length ≤ rest.length := by
    rw [hsp.1]
    simp only [List.length_append, List.length_cons]
    omega
  simp only [subAux, List.length_cons, subAuxF, hs, if_neg hn, hv]
  rw [subAuxF_fuel lookup rest.length after.length after hle (le_refl _)]
  simp

theorem splitAtClose_none_of : ∀ l : List Char, '}' ∉ l → splitAtClose l = none := by
  intro l
  induction l with
  | nil => intro _; rfl
  | cons a t ih =>
    intro h
    have ha : ¬ a = '}' := fun hh => h (by simp [hh])
    have ht : '}' ∉ t := fun hm => h (List.mem_cons_of_mem _ hm)
    simp [splitAtClose, if_neg ha, ih ht]

/-- Splitting a list at the first occurrence of an element it contains. -/
theorem mem_first_split {α : Type} [DecidableEq α] (c : α) :
    ∀ l : List α, c ∈ l → ∃ s t, l = s ++ c :: t ∧ c ∉ s := by
  intro l
  induction l with
  | nil => intro h; simp at h
  | cons a t ih =>
    intro h
    by_cases hac : a = c
    · exact ⟨[], t, by simp [hac], by simp⟩
    · have hct : c ∈ t := by
        rcases List.mem_cons.mp h with h1 | h2
        · exact absurd h1.symm hac
        · exact h2
      obtain ⟨s, t', hst, hns⟩ := ih hct
      refine ⟨a :: s, t', by simp [hst], ?_⟩
      intro hm
      rcases List.mem_cons.mp hm with h1 | h2
      · exact hac h1.symm
      · exact hns h2

theorem containsClose_false : ∀ l : List Char, containsClose l = false → '}' ∉ l := by
  intro l
  induction l with
  | nil => intro _; simp
  | cons a t ih =>
    intro h
    simp only [containsClose, Bool.or_eq_false_iff, decide_eq_false_iff_not] at h
    intro hm
    rcases List.mem_cons.mp hm with h1 | h2
    · exact h.1 h1.symm
    · exact ih h.2 h2

/-- A list with no opening brace followed anywhere later by a closing brace
    is left unchanged by the scan. -/
theorem subAux_no_pair (lookup : String → Option String) :
    ∀ cs : List Char, containsBracePair cs = false → subAux lookup cs = cs := by
  intro cs
  induction cs with
  | nil => intro _; rfl
  | cons c rest ih =>
    intro h
    simp only [containsBracePair, Bool.or_eq_false_iff, Bool.and_eq_false_iff] at h
    obtain ⟨h1, h2⟩ := h
    by_cases hc : c = '{'
    · have hcc : containsClose rest = false := by
        rcases h1 with h1 | h1
        · rw [hc] at h1
          simp at h1
        · exact h1
      have hmem : '}' ∉ rest := containsClose_false rest hcc
      subst hc
      rw [subAux_noclose lookup rest (splitAtClose_none_of rest hmem), ih h2]
    · rw [subAux_cons lookup c rest hc, ih h2]

/-- Core preservation lemma: if the input decomposes around a brace token
    `{n}` (with `n` empty or unregistered) and no registered name contains
    an opening brace, the token survives the scan verbatim, as a
    contiguous run of the output. -/
theorem subAux_keeps (lookup : String → Option String)
    (hlk : ∀ k : List Char, '{' ∈ k → lookup (String.mk k) = none) :
    ∀ (N : Nat) (cs a n b : List Char), cs.length ≤ N →
      cs = a ++ '{' :: (n ++ '}' :: b) → '}' ∉ n →
      (n = [] ∨ lookup (String.mk n) = none) →
      ('{' :: (n ++ ['}'])) <:+: subAux lookup cs := by
  intro N
  induction N with
  | zero =>
    intro cs a n b hlen hdec _ _
    subst hdec
    simp at hlen
  | succ N ih =>
    intro cs a n b hlen hdec hn hlook
    cases a with
    | nil =>
      simp only [List.nil_append] at hdec
      subst hdec
      by_cases hne : n = []
      · subst hne
        simp only [List.nil_append]
        have hs : splitAtClose ('}' :: b) = some ([], b) := by simp [splitAtClose]
        rw [subAux_emptyname lookup _ b hs, subAux_cons lookup '}' b (by decide)]
        exact ⟨[], subAux lookup b, by simp⟩
      · have hnone : lookup (String.mk n) = none := hlook.resolve_left hne
        have hs : splitAtClose (n ++ '}' :: b) = some (n, b) :=
          splitAtClose_append n b hn
        rw [subAux_unknown lookup _ n b hs hne hnone]
        exact ⟨[], subAux lookup b, by simp⟩
    | cons c a' =>
      simp only [List.cons_append] at hdec
      subst hdec
      have hlen' : (a' ++ '{' :: (n ++ '}' :: b)).length ≤ N := by
        simp only [List.length_cons] at hlen
        omega
      by_cases hc : c = '{'
      · subst hc
        by_cases hmem : '}' ∈ a'
        · obtain ⟨a1, a2, hsplit, hnot⟩ := mem_first_split '}' a' hmem
          subst hsplit
          have hre : (a1 ++ '}' :: a2) ++ '{' :: (n ++ '}' :: b) =
              a1 ++ '}' :: (a2 ++ '{' :: (n ++ '}' :: b)) := by
            simp [List.append_assoc]
          have hs : splitAtClose ((a1 ++ '}' :: a2) ++ '{' :: (n ++ '}' :: b)) =
              some (a1, a2 ++ '{' :: (n ++ '}' :: b)) := by
            rw [hre]
            exact splitAtClose_append a1 _ hnot
          have hlena : (a2 ++ '{' :: (n ++ '}' :: b)).length ≤ N := by
            simp only [List.length_append, List.length_cons] at hlen' ⊢
            omega
          have hrec := ih (a2 ++ '{' :: (n ++ '}' :: b)) a2 n b hlena rfl hn hlook
          obtain ⟨s, t, hst⟩ := hrec
          by_cases ha1 : a1 = []
          · subst ha1
            have hs' : splitAtClose ([] ++ '}' :: a2 ++ '{' :: (n ++ '}' :: b)) =
                some ([], a2 ++ '{' :: (n ++ '}' :: b)) := by simpa using hs
            rw [subAux_emptyname lookup _ _ hs']
            have hstep : ([] ++ '}' :: a2) ++ '{' :: (n ++ '}' :: b) =
                '}' :: (a2 ++ '{' :: (n ++ '}' :: b)) := by simp
            rw [hstep, subAux_cons lookup '}' _ (by decide)]
            exact ⟨'{' :: '}' :: s, t, by simp [hst]⟩
          · cases hv : lookup (String.mk a1) with
            | some v =>
              rw [subAux_known lookup _ a1 _ v hs ha1 hv]
              exact ⟨v.data ++ s, t, by simp [hst]⟩
            | none =>
              rw [subAux_unknown lookup _ a1 _ hs ha1 hv]
              exact ⟨'{' :: (a1 ++ '}' :: s), t, by simp [hst]⟩
        · -- the first closing brace after this opening brace is the token's
          have hnm : '}' ∉ a' ++ '{' :: n := by
            intro hm
            rcases List.mem_append.mp hm with h1 | h1
            · exact hmem h1
            · rcases List.mem_cons.mp h1 with h2 | h2
              · exact absurd h2 (by decide)
              · exact hn h2
          have hre : a' ++ '{' :: (n ++ '}' :: b) = (a' ++ '{' :: n) ++ '}' :: b := by
            simp [List.append_assoc]
          have hs : splitAtClose (a' ++ '{' :: (n ++ '}' :: b)) =
              some (a' ++ '{' :: n, b) := by
            rw [hre]
            exact splitAtClose_append _ b hnm
          have hbr : lookup (String.mk (a' ++ '{' :: n)) = none :=
            hlk _ (by simp)
          have hnn : a' ++ '{' :: n ≠ [] := by simp
          rw [subAux_unknown lookup _ _ b hs hnn hbr]
          exact ⟨'{' :: a', subAux lookup b, by simp⟩
      · rw [subAux_cons lookup c _ hc]
        obtain ⟨s, t, hst⟩ := ih _ a' n b hlen' rfl hn hlook
        exact ⟨c :: s, t, by simp [hst]⟩

/-- No registered generator name contains an opening brace (the only key
    is `"one_week_ago"`). -/
theorem FUNCTION_MAPPING_no_brace (today : Date) :
    ∀ k : List Char, '{' ∈ k → FUNCTION_MAPPING today (String.mk k) = none := by
  intro k hk
  unfold FUNCTION_MAPPING
  split
  · rename_i hkk
    exfalso
    have hd : k = ("one_week_ago" : String).data := congrArg String.data hkk
    subst hd
    exact absurd hk (by decide)
  · rfl

/-- Claim C1, counterexample: with a fetch that succeeds and a destination
    `"d/x"` whose parent directory does not exist, `open(filename, 'wb')`
    raises an exception that `download_file`'s two `except` clauses do not
    catch, so the download loop aborts (`none`) instead of continuing to
    the second entry — contradicting "no single download failure aborts the
    batch or the process". -/
theorem C1_counterexample :
    download_file fetchOk fs0 "http://a" "d/x" = DLOutcome.exn fs0 ∧
    runDownloads fetchOk fs0 [("http://a", "d/x"), ("http://b", "y")] = none := by
  decide

/-- Claim C1, amended: a download that fails with an HTTP error or a
    transport (URL) error is caught, counted as a failure (no success
    increment), and the loop continues to the next entry with the
    filesystem unchanged; only such fetch-level failures are caught —
    any other exception propagates and aborts the batch. -/
theorem C1_amended_thm (fetch : String → FetchResult) (fs : FS)
    (url filename : String) (rest : List (String × String))
    (h : (fetch url).isError = true) :
    runDownloads fetch fs ((url, filename) :: rest) = runDownloads fetch fs rest := by
  cases hf : fetch url with
  | ok c => rw [hf] at h; simp [FetchResult.isError] at h
  | httpError c r => simp [runDownloads, download_file, hf]
  | urlError r => simp [runDownloads, download_file, hf]

/-- Witness for `C1_amended_thm` at a concrete failing fetch. -/
theorem C1_amended_witness :
    (fetch404 "u").isError = true ∧
    runDownloads fetch404 fs0 [("u", "f"), ("v", "g")] =
      runDownloads fetch404 fs0 [("v", "g")] :=
  ⟨rfl, C1_amended_thm fetch404 fs0 "u" "f" [("v", "g")] rfl⟩

/-- Claim C3, counterexample: `download_file` never creates directories.
    With an empty filesystem and destination `"d/x"`, the fetch succeeds
    but no parent directory is created: the outcome is an uncaught
    exception and the directory set is unchanged (still empty) —
    contradicting "the driver ensures the destination path's parent
    directory exists, creating it ... if absent". -/
theorem C3_counterexample :
    download_file fetchOk fs0 "u" "d/x" = DLOutcome.exn fs0 ∧
    fs0.dirs = [] ∧ (download_file fetchOk fs0 "u" "d/x").fsOf.dirs = [] := by
  decide

/-- Claim C3, amended: `download_file` performs no directory creation at
    all — the directory set is preserved in every outcome — and when the
    fetch succeeds but the destination's parent directory is missing, the
    write raises an exception that escapes the function, leaving the
    filesystem unchanged. -/
theorem C3_amended_thm (fetch : String → FetchResult) (fs : FS)
    (url filename : String) :
    (download_file fetch fs url filename).fsOf.dirs = fs.dirs ∧
    (∀ content, fetch url = FetchResult.ok content →
      parentExistsb fs filename = false →
      download_file fetch fs url filename = DLOutcome.exn fs) := by
  constructor
  · cases hf : fetch url with
    | ok c =>
      simp only [download_file, hf]
      split
      · simp [DLOutcome.fsOf, writeFile]
      · simp [DLOutcome.fsOf]
    | httpError c r => simp [download_file, hf, DLOutcome.fsOf]
    | urlError r => simp [download_file, hf, DLOutcome.fsOf]
  · intro content hc hp
    simp [download_file, hc, hp]

/-- Witness for `C3_amended_thm` at a concrete input with a missing
    parent directory. -/
theorem C3_amended_witness :
    (download_file fetchOk fs0 "u" "d/x").fsOf.dirs = fs0.dirs ∧
    fetchOk "u" = FetchResult.ok [104, 105] ∧
    parentExistsb fs0 "d/x" = false ∧
    download_file fetchOk fs0 "u" "d/x" = DLOutcome.exn fs0 :=
  ⟨(C3_amended_thm fetchOk fs0 "u" "d/x").1, rfl, by decide,
    (C3_amended_thm fetchOk fs0 "u" "d/x").2 [104, 105] rfl (by decide)⟩

/-- Claim C9: when the fetch itself fails (HTTP-level or transport-level
    error), `download_file` returns `False` with the filesystem completely
    unchanged — the destination is never opened or written, so any
    pre-existing file there is untouched. -/
theorem C9_thm (fetch : String → FetchResult) (fs : FS) (url filename : String)
    (h : (∃ c r, fetch url = FetchResult.httpError c r) ∨
         (∃ r, fetch url = FetchResult.urlError r)) :
    download_file fetch fs url filename = DLOutcome.failure fs := by
  rcases h with ⟨c, r, hf⟩ | ⟨r, hf⟩ <;> simp [download_file, hf]

/-- Witness for `C9_thm` at a concrete HTTP 404. -/
theorem C9_witness :
    ((∃ c r, fetch404 "u" = FetchResult.httpError c r) ∨
      (∃ r, fetch404 "u" = FetchResult.urlError r)) ∧
    download_file fetch404 fs0 "u" "d/x" = DLOutcome.failure fs0 :=
  ⟨Or.inl ⟨404, "Not Found", rfl⟩,
    C9_thm fetch404 fs0 "u" "d/x" (Or.inl ⟨404, "Not Found", rfl⟩)⟩

/-- Claim C4: after the download loop, a zero success count skips the
    publish step entirely and exits 0; a positive success count invokes
    `git_push` exactly once, exiting 0 when it succeeds and 1 when it
    fails. -/
theorem C4_thm (w : GitWorld) (n : Nat) :
    (n = 0 → mainPostLoop w n = (0, 0)) ∧
    (0 < n → (mainPostLoop w n).2 = 1 ∧
      ((git_push w).1 = true → (mainPostLoop w n).1 = 0) ∧
      ((git_push w).1 = false → (mainPostLoop w n).1 = 1)) := by
  constructor
  · intro h; subst h; simp [mainPostLoop]
  · intro h
    refine ⟨?_, ?_, ?_⟩
    · simp only [mainPostLoop, if_pos h]
      split <;> rfl
    · intro hg; simp [mainPostLoop, if_pos h, hg]
    · intro hg; simp [mainPostLoop, if_pos h, hg]

/-- Witness for `C4_thm` at a concrete world, for both a zero and a
    positive success count. -/
theorem C4_witness :
    mainPostLoop ⟨0, 0, "", 0, 0⟩ 0 = (0, 0) ∧
    (mainPostLoop ⟨0, 0, "", 0, 0⟩ 2).2 = 1 ∧
    (mainPostLoop ⟨0, 0, "", 0, 0⟩ 2).1 = 0 :=
  ⟨(C4_thm ⟨0, 0, "", 0, 0⟩ 0).1 rfl,
    ((C4_thm ⟨0, 0, "", 0, 0⟩ 2).2 (by decide)).1,
    ((C4_thm ⟨0, 0, "", 0, 0⟩ 2).2 (by decide)).2.1 (by decide)⟩

/-- Claim C8: when staging succeeded and `git status --porcelain` printed
    nothing (clean tree after stripping), `git_push` reports success having
    invoked only `add` and `status` — no commit and no push. -/
theorem C8_thm (w : GitWorld) (hadd : w.addExit = 0)
    (hclean : trim w.statusOut.data = []) :
    git_push w = (true, [GitCmd.add, GitCmd.gstatus]) ∧
    GitCmd.commit ∉ (git_push w).2 ∧ GitCmd.push ∉ (git_push w).2 := by
  have h : git_push w = (true, [GitCmd.add, GitCmd.gstatus]) := by
    simp [git_push, hadd, hclean]
  refine ⟨h, ?_, ?_⟩ <;> rw [h] <;> decide

/-- Witness for `C8_thm`: whitespace-only status output, with failing
    commit/push exit codes that are never consulted. -/
theorem C8_witness :
    (⟨0, 1, "  \n", 7, 7⟩ : GitWorld).addExit = 0 ∧
    trim (("  \n" : String).data) = [] ∧
    git_push ⟨0, 1, "  \n", 7, 7⟩ = (true, [GitCmd.add, GitCmd.gstatus]) :=
  ⟨rfl, by decide, (C8_thm ⟨0, 1, "  \n", 7, 7⟩ rfl (by decide)).1⟩

/-! ### Calendar lemmas for `one_week_ago` -/

/-- Every month has at least one day. -/
theorem daysInMonth_pos (y m : Nat) : 1 ≤ daysInMonth y m := by
  unfold daysInMonth
  split
  · split <;> omega
  · split <;> omega

set_option maxHeartbeats 1000000 in
/-- `prevDay` of a valid date other than 0001-01-01 is valid and has the
    previous ordinal. -/
theorem prevDay_spec (D : Date) (hv : isValidDate D) (h1 : 1 < ordinalOf D) :
    isValidDate (prevDay D) ∧ ordinalOf (prevDay D) + 1 = ordinalOf D := by
  obtain ⟨y, m, d⟩ := D
  simp only [isValidDate] at hv
  obtain ⟨hy, hm1, hm2, hd1, hd2⟩ := hv
  by_cases hd : 1 < d
  · have hp : prevDay ⟨y, m, d⟩ = ⟨y, m, d - 1⟩ := by simp [prevDay, hd]
    rw [hp]
    constructor
    · simp only [isValidDate]
      exact ⟨hy, hm1, hm2, by omega, by omega⟩
    · simp only [ordinalOf]
      omega
  · have hdd : d = 1 := by omega
    subst hdd
    by_cases hm : 1 < m
    · have hp : prevDay ⟨y, m, 1⟩ = ⟨y, m - 1, daysInMonth y (m - 1)⟩ := by
        simp [prevDay, hm]
      rw [hp]
      have h2 : 2 ≤ m := hm
      constructor
      · simp only [isValidDate]
        exact ⟨hy, by omega, by omega, daysInMonth_pos y (m - 1), le_refl _⟩
      · interval_cases m <;>
          cases hL : isLeap y <;>
            simp [ordinalOf, daysBeforeMonth, daysInMonth, hL]
    · have hmm : m = 1 := by omega
      subst hmm
      have hy2 : 2 ≤ y := by
        by_contra hcon
        have hyy : y = 1 := by omega
        subst hyy
        simp [ordinalOf, daysBeforeMonth, leapCount] at h1
      have hp : prevDay ⟨y, 1, 1⟩ = ⟨y - 1, 12, 31⟩ := by simp [prevDay]
      rw [hp]
      constructor
      · simp only [isValidDate]
        refine ⟨by omega, by omega, by omega, by omega, ?_⟩
        norm_num [daysInMonth]
      · have h12 : daysInMonth (y - 1) 12 = 31 := by norm_num [daysInMonth]
        have hb1 : daysBeforeMonth y 1 = 0 := by norm_num [daysBeforeMonth]
        have hb12 : daysBeforeMonth (y - 1) 12 =
            334 + (if isLeap (y - 1) then 1 else 0) := by
          norm_num [daysBeforeMonth]
        clear h1 hd hm hd1 hd2 hm1 hm2
        cases hL : isLeap (y - 1) with
        | false =>
          have hfacts := hL
          simp only [isLeap, decide_eq_false_iff_not] at hfacts
          rw [hL] at hb12
          simp only [ordinalOf, leapCount, hb1, hb12, h12, Bool.false_eq_true,
            if_false]
          omega
        | true =>
          have hfacts := hL
          simp only [isLeap, decide_eq_true_eq] at hfacts
          rw [hL] at hb12
          simp only [ordinalOf, leapCount, hb1, hb12, h12, if_true]
          omega

/-- Subtracting `k` days from a valid date with ordinal above `k` yields a
    valid date whose ordinal is exactly `k` smaller. -/
theorem subDays_spec (k : Nat) (D : Date) (hv : isValidDate D)
    (hk : k < ordinalOf D) :
    isValidDate (subDays D k) ∧ ordinalOf (subDays D k) + k = ordinalOf D := by
  induction k generalizing D with
  | zero => simpa [subDays] using hv
  | succ n ih =>
    have hstep := prevDay_spec D hv (by omega)
    have hrec := ih (prevDay D) hstep.1 (by omega)
    simp only [subDays]
    exact ⟨hrec.1, by omega⟩

/-- Claim C6: `one_week_ago`, invoked with current date `D`, formats the
    valid calendar date whose ordinal is exactly 7 less than `D`'s, as
    `YYYY-MM-DD`; in particular on 2024-03-10 it returns "2024-03-03". -/
theorem C6_thm (D : Date) (hv : isValidDate D) (h7 : 7 < ordinalOf D) :
    (isValidDate (subDays D 7) ∧ ordinalOf (subDays D 7) + 7 = ordinalOf D ∧
      one_week_ago D = formatDate (subDays D 7)) ∧
    one_week_ago ⟨2024, 3, 10⟩ = "2024-03-03" := by
  have h := subDays_spec 7 D hv h7
  exact ⟨⟨h.1, h.2, rfl⟩, by decide⟩

/-- Witness for `C6_thm` at the concrete date 2024-03-10. -/
theorem C6_witness :
    isValidDate (⟨2024, 3, 10⟩ : Date) ∧ 7 < ordinalOf ⟨2024, 3, 10⟩ ∧
    one_week_ago ⟨2024, 3, 10⟩ = "2024-03-03" :=
  ⟨by decide, by decide, (C6_thm ⟨2024, 3, 10⟩ (by decide) (by decide)).2⟩

/-- Claim C5: placeholder expansion leaves any string containing no
    brace-enclosed substring unchanged, and any `\x7bname\x7d` token whose
    name is not in the generator registry survives byte-for-byte as a
    contiguous run of the output. -/
theorem C5_thm (today : Date) (cs : List Char) :
    (containsBracePair cs = false → subAux (FUNCTION_MAPPING today) cs = cs) ∧
    (∀ a n b : List Char, cs = a ++ '{' :: (n ++ '}' :: b) → n ≠ [] → '}' ∉ n →
      FUNCTION_MAPPING today (String.mk n) = none →
      ('{' :: (n ++ ['}'])) <:+: subAux (FUNCTION_MAPPING today) cs) := by
  constructor
  · exact subAux_no_pair _ cs
  · intro a n b hdec hne hn hnone
    exact subAux_keeps _ (FUNCTION_MAPPING_no_brace today) cs.length cs a n b
      (le_refl _) hdec hn (Or.inr hnone)

/-- Witness for `C5_thm`: a brace-free URL is unchanged, and the unknown
    token `\x7bnope\x7d` survives verbatim. -/
theorem C5_witness :
    (containsBracePair ("https://plain/x" : String).data = false ∧
      subAux (FUNCTION_MAPPING d0) ("https://plain/x" : String).data =
        ("https://plain/x" : String).data) ∧
    (("a\x7bnope\x7dx" : String).data =
        ("a" : String).data ++
          '{' :: (("nope" : String).data ++ '}' :: ("x" : String).data) ∧
      FUNCTION_MAPPING d0 (String.mk ("nope" : String).data) = none ∧
      ('{' :: (("nope" : String).data ++ ['}'])) <:+:
        subAux (FUNCTION_MAPPING d0) ("a\x7bnope\x7dx" : String).data) :=
  ⟨⟨by decide, (C5_thm d0 ("https://plain/x" : String).data).1 (by decide)⟩,
   ⟨by decide, by decide,
     (C5_thm d0 ("a\x7bnope\x7dx" : String).data).2
       ("a" : String).data ("nope" : String).data ("x" : String).data
       (by decide) (by decide) (by decide) (by decide)⟩⟩

/-- Claim C10: the empty placeholder `\x7b\x7d` is never treated as a token —
    the scan emits the two braces unchanged and moves on — and whenever the
    input decomposes around `\x7b\x7d`, that two-character substring appears
    unchanged in the output (a token needs at least one character, other
    than a closing brace, between its braces). -/
theorem C10_thm (today : Date) (cs : List Char) :
    (∀ t : List Char, subAux (FUNCTION_MAPPING today) ('{' :: '}' :: t) =
      '{' :: '}' :: subAux (FUNCTION_MAPPING today) t) ∧
    (∀ a b : List Char, cs = a ++ '{' :: '}' :: b →
      ('{' :: ['}']) <:+: subAux (FUNCTION_MAPPING today) cs) := by
  constructor
  · intro t
    have hs : splitAtClose ('}' :: t) = some ([], t) := by simp [splitAtClose]
    rw [subAux_emptyname _ _ t hs, subAux_cons _ '}' t (by decide)]
  · intro a b hdec
    have hdec' : cs = a ++ '{' :: ([] ++ '}' :: b) := by simpa using hdec
    exact subAux_keeps _ (FUNCTION_MAPPING_no_brace today) cs.length cs a [] b
      (le_refl _) hdec' (by simp) (Or.inl rfl)

/-- Witness for `C10_thm` on the concrete input `u\x7b\x7dv`. -/
theorem C10_witness :
    subAux (FUNCTION_MAPPING d0) ('{' :: '}' :: ("v" : String).data) =
      '{' :: '}' :: subAux (FUNCTION_MAPPING d0) ("v" : String).data ∧
    ("u\x7b\x7dv" : String).data =
      ("u" : String).data ++ '{' :: '}' :: ("v" : String).data ∧
    ('{' :: ['}']) <:+: subAux (FUNCTION_MAPPING d0) ("u\x7b\x7dv" : String).data :=
  ⟨(C10_thm d0 []).1 ("v" : String).data, by decide,
    (C10_thm d0 ("u\x7b\x7dv" : String).data).2 ("u" : String).data
      ("v" : String).data (by decide)⟩

/-! ### Loader lemmas -/

theorem readLoop_fst_num (lookup : String → Option String) :
    ∀ (ls : List String) (n n' : Nat) (acc : List (String × String)),
      (readLoop lookup n acc ls).1 = (readLoop lookup n' acc ls).1 := by
  intro ls
  induction ls with
  | nil => intro n n' acc; rfl
  | cons line rest ih =>
    intro n n' acc
    cases hp : parseLine lookup line with
    | skip => simp only [readLoop, hp]; exact ih _ _ _
    | warn => simp only [readLoop, hp]; exact ih _ _ _
    | entry u f => simp only [readLoop, hp]; exact ih _ _ _

/-- A line that is skipped or only warns contributes nothing to the
    mapping component. -/
theorem readLoop_fst_skipline (lookup : String → Option String) (L : String)
    (hL : parseLine lookup L = LineResult.skip ∨ parseLine lookup L = LineResult.warn) :
    ∀ (pre post : List String) (n : Nat) (acc : List (String × String)),
      (readLoop lookup n acc (pre ++ L :: post)).1 =
        (readLoop lookup n acc (pre ++ post)).1 := by
  intro pre
  induction pre with
  | nil =>
    intro post n acc
    rcases hL with h | h <;> simp only [List.nil_append, readLoop, h] <;>
      exact readLoop_fst_num lookup post _ _ _
  | cons p pre' ih =>
    intro post n acc
    cases hp : parseLine lookup p with
    | skip => simp only [List.cons_append, readLoop, hp]; exact ih _ _ _
    | warn => simp only [List.cons_append, readLoop, hp]; exact ih _ _ _
    | entry u f => simp only [List.cons_append, readLoop, hp]; exact ih _ _ _

/-- A warning line's 1-based number is reported. -/
theorem readLoop_warn_mem (lookup : String → Option String) (L : String)
    (hL : parseLine lookup L = LineResult.warn) :
    ∀ (pre post : List String) (n : Nat) (acc : List (String × String)),
      (n + pre.length) ∈ (readLoop lookup n acc (pre ++ L :: post)).2 := by
  intro pre
  induction pre with
  | nil =>
    intro post n acc
    simp only [List.nil_append, readLoop, hL, List.length_nil, Nat.add_zero]
    exact List.mem_cons_self _ _
  | cons p pre' ih =>
    intro post n acc
    have heq : n + (p :: pre').length = (n + 1) + pre'.length := by
      simp only [List.length_cons]
      omega
    rw [heq]
    cases hp : parseLine lookup p with
    | skip => simp only [List.cons_append, readLoop, hp]; exact ih _ _ _
    | warn =>
      simp only [List.cons_append, readLoop, hp]
      exact List.mem_cons_of_mem _ (ih _ _ _)
    | entry u f => simp only [List.cons_append, readLoop, hp]; exact ih _ _ _

/-! ### Association-list lemmas for the Python dict -/

theorem assocFind_append (m m' : List (String × String)) (k : String) :
    assocFind (m ++ m') k =
      match assocFind m k with
      | some b => some b
      | none => assocFind m' k := by
  induction m with
  | nil => rfl
  | cons p t ih =>
    obtain ⟨a, b⟩ := p
    by_cases hak : a = k
    · simp [assocFind, hak]
    · simp [assocFind, hak, ih]

theorem assocFind_mapUpd (m : List (String × String)) (u v k : String) (hk : k ≠ u) :
    assocFind (m.map (fun p => if p.1 = u then (u, v) else p)) k = assocFind m k := by
  induction m with
  | nil => rfl
  | cons p t ih =>
    obtain ⟨a, b⟩ := p
    rw [List.map_cons]
    by_cases hau : a = u
    · rw [show (if (a, b).1 = u then (u, v) else (a, b)) = (u, v) from if_pos hau]
      simp only [assocFind]
      rw [if_neg (Ne.symm hk), if_neg (fun hh => hk (hh.symm.trans hau)), ih]
    · rw [show (if (a, b).1 = u then (u, v) else (a, b)) = (a, b) from if_neg hau]
      simp only [assocFind]
      rw [ih]

theorem assocFind_some_of_any (m : List (String × String)) (u v : String)
    (h : m.any (fun p => p.1 == u) = true) :
    assocFind (m.map (fun p => if p.1 = u then (u, v) else p)) u = some v := by
  induction m with
  | nil => simp at h
  | cons p t ih =>
    obtain ⟨a, b⟩ := p
    rw [List.map_cons]
    by_cases hau : a = u
    · rw [show (if (a, b).1 = u then (u, v) else (a, b)) = (u, v) from if_pos hau]
      simp only [assocFind]
      simp
    · have h' : t.any (fun p => p.1 == u) = true := by
        simp only [List.any_cons] at h
        simpa [hau] using h
      rw [show (if (a, b).1 = u then (u, v) else (a, b)) = (a, b) from if_neg hau]
      simp only [assocFind]
      rw [if_neg hau]
      exact ih h' 

theorem assocFind_none_of_not_any (m : List (String × String)) (u : String)
    (h : m.any (fun p => p.1 == u) = false) :
    assocFind m u = none := by
  induction m with
  | nil => rfl
  | cons p t ih =>
    obtain ⟨a, b⟩ := p
    simp only [List.any_cons, Bool.or_eq_false_iff] at h
    have hau : ¬ a = u := by simpa using h.1
    simp [assocFind, hau, ih h.2]

/-- The value found after a Python-dict assignment: the assigned key maps
    to the new value, the others are untouched. -/
theorem assocFind_dictInsert (m : List (String × String)) (u v k : String) :
    assocFind (dictInsert m u v) k = if k = u then some v else assocFind m k := by
  unfold dictInsert
  by_cases hany : m.any (fun p => p.1 == u) = true
  · rw [if_pos hany]
    by_cases hk : k = u
    · subst hk
      rw [if_pos rfl]
      exact assocFind_some_of_any m k v hany
    · rw [if_neg hk]
      exact assocFind_mapUpd m u v k hk
  · have hany' : m.any (fun p => p.1 == u) = false := by
      cases hx : m.any (fun p => p.1 == u) with
      | false => rfl
      | true => exact absurd hx hany
    simp only [hany', Bool.false_eq_true, if_false]
    rw [assocFind_append]
    by_cases hk : k = u
    · subst hk
      rw [assocFind_none_of_not_any m k hany']
      simp [assocFind]
    · cases hf : assocFind m k with
      | some b => simp [hf, hk]
      | none => simp [hf, hk, assocFind, Ne.symm hk]

theorem dictInsert_keys (m : List (String × String)) (u v : String) :
    (dictInsert m u v).map Prod.fst =
      if m.any (fun p => p.1 == u) then m.map Prod.fst
      else m.map Prod.fst ++ [u] := by
  unfold dictInsert
  by_cases hany : m.any (fun p => p.1 == u) = true
  · rw [if_pos hany, if_pos hany, List.map_map]
    apply List.map_congr_left
    intro p _
    by_cases hp : p.1 = u
    · simp [Function.comp, hp]
    · simp [Function.comp, hp]
  · rw [if_neg hany, if_neg hany]
    simp

theorem dictInsert_nodup (m : List (String × String)) (u v : String)
    (h : (m.map Prod.fst).Nodup) :
    ((dictInsert m u v).map Prod.fst).Nodup := by
  rw [dictInsert_keys]
  split
  · exact h
  · rename_i hany
    have hnotmem : u ∉ m.map Prod.fst := by
      intro hm
      obtain ⟨p, hp, hpe⟩ := List.mem_map.mp hm
      have hx : m.any (fun q => q.1 == u) = true := by
        refine List.any_eq_true.mpr ⟨p, hp, ?_⟩
        simp [hpe]
      exact hany hx
    rw [List.nodup_append]
    refine ⟨h, List.nodup_singleton u, ?_⟩
    intro a ha hu
    simp only [List.mem_singleton] at hu
    subst hu
    exact hnotmem ha

theorem lastOf_cons {α : Type} (x : α) (l : List α) :
    lastOf (x :: l) = match lastOf l with
      | some y => some y
      | none => some x := by
  cases l with
  | nil => rfl
  | cons b t =>
    have hne : ∃ y, lastOf (b :: t) = some y := by
      induction t generalizing b with
      | nil => exact ⟨b, rfl⟩
      | cons c t' ih => simpa [lastOf] using ih c
    obtain ⟨y, hy⟩ := hne
    simp [lastOf, hy]

/-- Folding Python-dict assignments: the value found under `k` is the one
    of the last pair keyed `k`, if any. -/
theorem foldl_dictInsert_find (k : String) :
    ∀ (es m : List (String × String)),
      assocFind (es.foldl (fun m p => dictInsert m p.1 p.2) m) k =
        match lastOf (es.filter (fun p => p.1 == k)) with
        | some e => some e.2
        | none => assocFind m k := by
  intro es
  induction es with
  | nil => intro m; rfl
  | cons e es ih =>
    intro m
    obtain ⟨u, v⟩ := e
    simp only [List.foldl_cons]
    rw [ih]
    by_cases huk : u = k
    · subst huk
      rw [List.filter_cons_of_pos (by simp), lastOf_cons]
      cases hlast : lastOf (es.filter (fun p => p.1 == u)) with
      | some y => simp
      | none => simp [assocFind_dictInsert]
    · rw [List.filter_cons_of_neg (by simp [huk])]
      cases hlast : lastOf (es.filter (fun p => p.1 == k)) with
      | some y => simp
      | none => simp [assocFind_dictInsert, huk, Ne.symm]

theorem foldl_dictInsert_nodup :
    ∀ (es m : List (String × String)), (m.map Prod.fst).Nodup →
      ((es.foldl (fun m p => dictInsert m p.1 p.2) m).map Prod.fst).Nodup := by
  intro es
  induction es with
  | nil => intro m h; exact h
  | cons e es ih =>
    intro m h
    simp only [List.foldl_cons]
    exact ih _ (dictInsert_nodup _ _ _ h)

/-- The mapping component of the loader loop is the Python-dict fold over
    the entries the lines contribute. -/
theorem readLoop_fst_foldl (lookup : String → Option String) :
    ∀ (ls : List String) (n : Nat) (acc : List (String × String)),
      (readLoop lookup n acc ls).1 =
        (ls.filterMap (parsedEntry lookup)).foldl
          (fun m p => dictInsert m p.1 p.2) acc := by
  intro ls
  induction ls with
  | nil => intro n acc; rfl
  | cons line rest ih =>
    intro n acc
    cases hp : parseLine lookup line with
    | skip =>
      simp only [readLoop, hp, List.filterMap_cons, parsedEntry]
      exact ih _ _
    | warn =>
      simp only [readLoop, hp, List.filterMap_cons, parsedEntry]
      exact ih _ _
    | entry u f =>
      simp only [readLoop, hp, List.filterMap_cons, parsedEntry, List.foldl_cons]
      exact ih _ _

/-- Claim C2, counterexample: the line `"u a b"` has three
    whitespace-delimited fields, yet `split(None, 1)` yields exactly two
    parts (`"u"` and `"a b"`), so the loader produces an entry and emits no
    warning — contradicting "lines with 3 or more fields produce no entry
    and a warning". -/
theorem C2_counterexample :
    countFields (trim ("u a b" : String).data) = 3 ∧
    read_url_mapping (FUNCTION_MAPPING d0) ["u a b"] = ([("u", "a b")], []) := by
  decide

/-- Claim C2, amended: a non-blank, non-comment line with exactly one
    whitespace-delimited field (stripped, non-`#`, and with nothing left
    after the first field) contributes no mapping entry — the mapping
    equals that of the file with the line removed — and draws a warning
    bearing its 1-based line number.  (Lines with three or more fields
    split into two parts and do produce an entry.) -/
theorem C2_amended_thm (today : Date) (pre post : List String) (L : String)
    (h1 : trim L.data ≠ [])
    (h2 : (trim L.data).head? ≠ some '#')
    (h3 : ((trim L.data).dropWhile (fun c => !isSpace c)).dropWhile isSpace = []) :
    (read_url_mapping (FUNCTION_MAPPING today) (pre ++ L :: post)).1 =
      (read_url_mapping (FUNCTION_MAPPING today) (pre ++ post)).1 ∧
    (pre.length + 1) ∈ (read_url_mapping (FUNCTION_MAPPING today) (pre ++ L :: post)).2 := by
  have hw : parseLine (FUNCTION_MAPPING today) L = LineResult.warn := by
    unfold parseLine
    rw [if_neg h1, if_neg h2, if_pos h3]
  constructor
  · exact readLoop_fst_skipline _ L (Or.inr hw) pre post 1 []
  · have hm := readLoop_warn_mem _ L hw pre post 1 []
    rwa [Nat.add_comm] at hm

/-- Witness for `C2_amended_thm` on a file whose second line is the
    one-field line `"solo"`. -/
theorem C2_amended_witness :
    (trim ("solo" : String).data ≠ [] ∧
      (trim ("solo" : String).data).head? ≠ some '#' ∧
      ((trim ("solo" : String).data).dropWhile (fun c => !isSpace c)).dropWhile
        isSpace = []) ∧
    (read_url_mapping (FUNCTION_MAPPING d0) ["# c", "solo", "u v"]).1 =
      (read_url_mapping (FUNCTION_MAPPING d0) ["# c", "u v"]).1 ∧
    2 ∈ (read_url_mapping (FUNCTION_MAPPING d0) ["# c", "solo", "u v"]).2 :=
  ⟨⟨by decide, by decide, by decide⟩,
    (C2_amended_thm d0 ["# c"] ["u v"] "solo" (by decide) (by decide) (by decide)).1,
    (C2_amended_thm d0 ["# c"] ["u v"] "solo" (by decide) (by decide) (by decide)).2⟩

/-- Claim C7: the loader's mapping never holds two entries for the same
    processed URL (its keys are nodup), and the value found under any key
    `k` is the destination of the last line whose processed URL is `k` —
    so when two well-formed lines collide on the expanded URL, exactly one
    entry results and the later line's destination wins. -/
theorem C7_thm (today : Date) (lines : List String) (k : String) :
    ((read_url_mapping (FUNCTION_MAPPING today) lines).1.map Prod.fst).Nodup ∧
    assocFind (read_url_mapping (FUNCTION_MAPPING today) lines).1 k =
      match lastOf ((lines.filterMap
          (parsedEntry (FUNCTION_MAPPING today))).filter (fun p => p.1 == k)) with
      | some e => some e.2
      | none => none := by
  unfold read_url_mapping
  rw [readLoop_fst_foldl]
  refine ⟨foldl_dictInsert_nodup _ _ (by simp), ?_⟩
  rw [foldl_dictInsert_find]
  cases lastOf ((lines.filterMap
      (parsedEntry (FUNCTION_MAPPING today))).filter (fun p => p.1 == k)) with
  | some e => rfl
  | none => rfl

end DAP
